import Mathlib

/-!
Shallow embedding of the osync index/diff engine (internal/index/index.go)
and proofs of the specification's claims about it.

Strings from the Go code are modelled as `List Char`; file contents are byte
sequences, modelled as `List Char` with `Char.toNat` giving the byte value
(all inputs appearing in the claims are ASCII, where this is exact).
Go maps (`map[string]string`) are modelled as association lists in map
iteration order; Go guarantees unique keys, captured by the well-formedness
predicate `Index.wf`, but makes the iteration order unspecified, so theorems
about serialization quantify over the order as a permutation of the entries.
-/

set_option maxRecDepth 100000

set_option maxHeartbeats 1600000

/-- Name of the persisted index file, constant `indexFile = ".osync"`. -/
def indexFileName : List Char := ".osync".data

/-- Name of the ignore sidecar file, constant `ignoreFile = indexFile + "ignore"`. -/
def ignoreFileName : List Char := ".osyncignore".data

/-- One entry of the Go map `files map[string]string`: (relative path, hex fingerprint). -/
abbrev Entry := List Char × List Char

/-- Model of Go `strings.Split(s, sep)` for a one-character separator:
splits on every occurrence of the separator, keeping empty segments. -/
def splitOnChar (c : Char) : List Char → List (List Char)
  | [] => [[]]
  | x :: xs =>
    match splitOnChar c xs with
    | [] => [[]]
    | r :: rs => if x = c then [] :: r :: rs else (x :: r) :: rs

/-- Model of Go `bufio.dropCR`: removes one trailing carriage return from a scanned line. -/
def stripCR (l : List Char) : List Char :=
  if l.getLast? = some '\r' then l.dropLast else l

/-- Model of `readLines` (bufio.Scanner with ScanLines over the file content):
splits the content on newlines, drops the empty fragment after a trailing
newline, and strips one trailing carriage return from each line. -/
def readLines (c : List Char) : List (List Char) :=
  (if (splitOnChar '\n' c).getLast? = some [] then (splitOnChar '\n' c).dropLast
   else splitOnChar '\n' c).map stripCR

/-- Model of a Go map read with ok-flag: `v, ok := m[k]`. -/
def goLookupOpt (m : List Entry) (k : List Char) : Option (List Char) :=
  match m with
  | [] => none
  | p :: rest => if p.1 = k then some p.2 else goLookupOpt rest k

/-- Model of a plain Go map read `m[k]`, which yields the zero value `""` for a missing key. -/
def goLookupD (m : List Entry) (k : List Char) : List Char :=
  (goLookupOpt m k).getD []

/-- Model of a Go map write `m[k] = v`: overwrite the existing binding if present,
otherwise add a new one (appended, preserving the iteration-order model). -/
def mapInsert (m : List Entry) (k v : List Char) : List Entry :=
  if (goLookupOpt m k).isSome then m.map (fun p => if p.1 = k then (k, v) else p)
  else m ++ [(k, v)]

/-- The `Index` struct: `directory string` and `files map[string]string`. -/
structure Index where
  directory : List Char
  files : List Entry
deriving DecidableEq

/-- Well-formedness inherited from Go map semantics: the keys of `files` are distinct. -/
def Index.wf (i : Index) : Prop := (i.files.map Prod.fst).Nodup

instance (i : Index) : Decidable i.wf := by unfold Index.wf; infer_instance

/-- Outcome of `Load`: either an `Index` is returned, or the process panicked
(a Go runtime panic, such as an out-of-range slice access). -/
inductive LoadResult
  | ok (i : Index)
  | panicked
deriving DecidableEq

/-- The loop body of `Load` over the lines of the index file:
`parts := strings.Split(line, ":")` followed by `index.files[parts[0]] = parts[1]`.
Accessing `parts[1]` on a split with fewer than two segments is a runtime
panic (index out of range), modelled by `none`. -/
def insertLines (m : List Entry) : List (List Char) → Option (List Entry)
  | [] => some m
  | line :: rest =>
    match splitOnChar ':' line with
    | p :: v :: _ => insertLines (mapInsert m p v) rest
    | _ => none

/-- Model of `Load(directory)`. The `content` argument stands for the state of
the persisted index file at the directory root: `none` when `os.Stat` reports
it absent (blank index returned), `some c` for its byte content. -/
def Load (directory : List Char) (content : Option (List Char)) : LoadResult :=
  match content with
  | none => .ok ⟨directory, []⟩
  | some c =>
    match insertLines [] (readLines c) with
    | some m => .ok ⟨directory, m⟩
    | none => .panicked

/-- Model of the write loop of `Index.Save`: one `fmt.Sprintf("%s:%s\n", file, sum)`
per map entry, in map iteration order. The argument is the iteration order of
`i.files` (Go leaves it unspecified; theorems quantify over permutations). -/
def saveContent : List Entry → List Char
  | [] => []
  | (p, v) :: rest => p ++ ':' :: v ++ '\n' :: saveContent rest

/-- Model of `Index.Diff`: the receiver `i` is the previous index, `other` the
current one. A file of `other` is changed when the plain map read
`i.files[file]` (empty string when absent) differs from its sum; a file of
`i` is deleted when `other.files` has no binding for it. -/
def Index.Diff (i other : Index) : List (List Char) × List (List Char) :=
  ((other.files.filter (fun p => decide (goLookupD i.files p.1 ≠ p.2))).map Prod.fst,
   (i.files.filter (fun p => decide (goLookupOpt other.files p.1 = none))).map Prod.fst)

/-! SHA-1, the `crypto/sha1` hash used by `sha1sum`, over byte lists. -/

/-- Modulus of 32-bit words. -/
def w32 : Nat := 4294967296

/-- Left rotation of a 32-bit word. -/
def rotl (n x : Nat) : Nat := ((x <<< n) ||| (x >>> (32 - n))) % w32

/-- Big-endian 32-bit words from a byte list. -/
def toWords : List Nat → List Nat
  | b0 :: b1 :: b2 :: b3 :: rest => (((b0 * 256 + b1) * 256 + b2) * 256 + b3) :: toWords rest
  | _ => []

/-- Big-endian encoding of `n` in `k` bytes. -/
def lenBE : Nat → Nat → List Nat
  | 0, _ => []
  | k + 1, n => lenBE k (n / 256) ++ [n % 256]

/-- SHA-1 message padding: a 0x80 byte, zeros to 56 mod 64, then the bit length. -/
def sha1pad (msg : List Nat) : List Nat :=
  msg ++ 128 :: List.replicate ((119 - msg.length % 64) % 64) 0 ++ lenBE 8 (msg.length * 8)

/-- Message-schedule extension of a 16-word block to 80 words. -/
def extendLoop : Nat → List Nat → List Nat
  | 0, ws => ws
  | k + 1, ws =>
    let n := ws.length
    extendLoop k (ws ++ [rotl 1 ((ws.getD (n - 3) 0) ^^^ (ws.getD (n - 8) 0) ^^^
      (ws.getD (n - 14) 0) ^^^ (ws.getD (n - 16) 0))])

/-- The 80-round SHA-1 compression loop. -/
def compressLoop : Nat → Nat → List Nat → Nat × Nat × Nat × Nat × Nat → Nat × Nat × Nat × Nat × Nat
  | 0, _, _, st => st
  | k + 1, t, ws, st =>
    let (a, b, c, d, e) := st
    let f :=
      if t < 20 then (b &&& c) ||| ((b ^^^ 4294967295) &&& d)
      else if t < 40 then b ^^^ c ^^^ d
      else if t < 60 then (b &&& c) ||| (b &&& d) ||| (c &&& d)
      else b ^^^ c ^^^ d
    let kc :=
      if t < 20 then 1518500249
      else if t < 40 then 1859775393
      else if t < 60 then 2400959708
      else 3395469782
    let temp := (rotl 5 a + f + e + kc + ws.getD t 0) % w32
    compressLoop k (t + 1) ws (temp, a, rotl 30 b, c, d)

/-- Processing of one 64-byte chunk. -/
def processChunk (chunk : List Nat) (h : Nat × Nat × Nat × Nat × Nat) :
    Nat × Nat × Nat × Nat × Nat :=
  let ws := extendLoop 64 (toWords chunk)
  let (a, b, c, d, e) := compressLoop 80 0 ws h
  let (h0, h1, h2, h3, h4) := h
  ((h0 + a) % w32, (h1 + b) % w32, (h2 + c) % w32, (h3 + d) % w32, (h4 + e) % w32)

/-- Fold over the 64-byte chunks of the padded message (the fuel argument
bounds the number of chunks; the padded length is always a multiple of 64). -/
def sha1chunks : Nat → List Nat → Nat × Nat × Nat × Nat × Nat → Nat × Nat × Nat × Nat × Nat
  | 0, _, h => h
  | fuel + 1, bs, h =>
    match bs with
    | [] => h
    | _ => sha1chunks fuel (bs.drop 64) (processChunk (bs.take 64) h)

/-- Lowercase hexadecimal digit. -/
def hexDigitChar (n : Nat) : Char :=
  Char.ofNat (if n < 10 then 48 + n else 87 + n)

/-- Lowercase hexadecimal rendering of a 32-bit word, as in Go `fmt.Sprintf("%x", ...)`. -/
def wordHex (x : Nat) : List Char :=
  (List.range 8).map (fun i => hexDigitChar ((x >>> (28 - 4 * i)) % 16))

/-- SHA-1 digest of a byte list, rendered as 40 lowercase hex characters. -/
def sha1hex (msg : List Nat) : List Char :=
  let padded := sha1pad msg
  let (h0, h1, h2, h3, h4) :=
    sha1chunks padded.length padded (1732584193, 4023233417, 2562383102, 271733878, 3285377520)
  wordHex h0 ++ wordHex h1 ++ wordHex h2 ++ wordHex h3 ++ wordHex h4

/-- SHA-1 digest of a file content given as characters (byte values via `Char.toNat`). -/
def sha1hexOfContent (c : List Char) : List Char := sha1hex (c.map Char.toNat)

/-- Outcome of opening and reading one file during `Compute`'s walk:
its content, an error when opening (`os.Open` fails), or an error
while reading (`io.Copy` fails). -/
inductive FileRead
  | content (bytes : List Char)
  | openErr (msg : List Char)
  | readErr (msg : List Char)
deriving DecidableEq

/-- Outcome of a Go call in this model: a value, a returned error, or process
termination (`log.Fatal`). -/
inductive GoResult (α : Type)
  | ok (a : α)
  | err (msg : List Char)
  | fatal (msg : List Char)
deriving DecidableEq

/-- Model of `sha1sum(file)`: an `os.Open` failure is returned as an error,
but an `io.Copy` failure hits `log.Fatal(err)`, terminating the process. -/
def sha1sum : FileRead → GoResult (List Char)
  | .content bs => .ok (sha1hexOfContent bs)
  | .openErr m => .err m
  | .readErr m => .fatal m

/-- The walk callback of `Compute`, folded over the regular files of the tree
in walk (lexical) order: skip ignored paths, hash the rest; an error returned
by `sha1sum` aborts the walk and is propagated, a `log.Fatal` ends the process. -/
def walkFiles (ignoredFiles : List (List Char)) :
    List (List Char × FileRead) → GoResult (List Entry)
  | [] => .ok []
  | (p, fr) :: rest =>
    if ignoredFiles.contains p then walkFiles ignoredFiles rest
    else
      match sha1sum fr with
      | .ok d =>
        match walkFiles ignoredFiles rest with
        | .ok m => .ok ((p, d) :: m)
        | .err m => .err m
        | .fatal m => .fatal m
      | .err m => .err m
      | .fatal m => .fatal m

/-- Model of the `os.Stat` presence check for a named file of the tree,
paired with its read outcome. -/
def goFileLookup (fs : List (List Char × FileRead)) (k : List Char) : Option FileRead :=
  match fs with
  | [] => none
  | p :: rest => if p.1 = k then some p.2 else goFileLookup rest k

/-- Model of `Compute(directory)`. The `fs` argument lists the regular files
under the directory — relative path and read outcome — in walk order; the
marker files (`.osync`, `.osyncignore`) are regular files and appear in it
when present. The ignore set is read from the ignore sidecar when present
(a `readLines` failure there is returned as an error), then every
non-ignored file is hashed into the `files` map. -/
def ComputeIO (directory : List Char) (fs : List (List Char × FileRead)) : GoResult Index :=
  let ignored : GoResult (List (List Char)) :=
    match goFileLookup fs ignoreFileName with
    | some (.content c) => .ok (readLines c)
    | some (.openErr m) => .err m
    | some (.readErr m) => .err m
    | none => .ok []
  match ignored with
  | .ok ign =>
    match walkFiles ign fs with
    | .ok files => .ok ⟨directory, files⟩
    | .err m => .err m
    | .fatal m => .fatal m
  | .err m => .err m
  | .fatal m => .fatal m

/-- Constraint on one entry under which the textual index format is lossless:
no separator and no line delimiter occurs in the path or the fingerprint, and
the fingerprint does not end in a carriage return. -/
def lineOK (e : Entry) : Prop :=
  ':' ∉ e.1 ∧ '\n' ∉ e.1 ∧ ':' ∉ e.2 ∧ '\n' ∉ e.2 ∧ e.2.getLast? ≠ some '\r'

instance (e : Entry) : Decidable (lineOK e) := by unfold lineOK; infer_instance

/-- Directory content of the C4 test scenario, as the list of regular files
in walk (lexical) order: the ignore sidecar file listing b, then file a with
content a, then file b with content b. -/
def scenarioFS : List (List Char × FileRead) :=
  [(ignoreFileName, .content ['b']), (['a'], .content ['a']), (['b'], .content ['b'])]

/-- Number of occurrences of a path in a result list. -/
def countOcc (l : List (List Char)) (p : List Char) : Nat :=
  (l.filter (fun q => decide (q = p))).length

/-! Lemmas about `goLookupOpt` as a finite-map read. -/

theorem goLookupOpt_eq_some_of_mem :
    ∀ {m : List Entry} {k v : List Char}, (m.map Prod.fst).Nodup → (k, v) ∈ m →
      goLookupOpt m k = some v
  | [], _, _, _, hm => absurd hm (List.not_mem_nil _)
  | (q, w) :: rest, k, v, hnd, hm => by
    rcases List.mem_cons.mp hm with h | h
    · cases h
      simp [goLookupOpt]
    · have hk : q ≠ k := by
        intro he
        subst he
        exact (List.nodup_cons.mp hnd).1 (List.mem_map.mpr ⟨(q, v), h, rfl⟩)
      simpa [goLookupOpt, hk] using
        goLookupOpt_eq_some_of_mem (List.nodup_cons.mp hnd).2 h

theorem mem_of_goLookupOpt_eq_some :
    ∀ {m : List Entry} {k v : List Char}, goLookupOpt m k = some v → (k, v) ∈ m
  | [], _, _, h => by simp [goLookupOpt] at h
  | (q, w) :: rest, k, v, h => by
    by_cases hk : q = k
    · subst hk
      simp [goLookupOpt] at h
      subst h
      exact List.mem_cons_self _ _
    · rw [goLookupOpt, if_neg hk] at h
      exact List.mem_cons_of_mem _ (mem_of_goLookupOpt_eq_some h)

theorem goLookupOpt_isSome_of_mem :
    ∀ {m : List Entry} {k v : List Char}, (k, v) ∈ m → (goLookupOpt m k).isSome
  | [], _, _, hm => absurd hm (List.not_mem_nil _)
  | (q, w) :: rest, k, v, hm => by
    by_cases hk : q = k
    · subst hk
      simp [goLookupOpt]
    · rw [goLookupOpt, if_neg hk]
      rcases List.mem_cons.mp hm with h | h
      · cases h; exact absurd rfl hk
      · exact goLookupOpt_isSome_of_mem h

theorem goLookupOpt_eq_none_iff {m : List Entry} {k : List Char} :
    goLookupOpt m k = none ↔ ∀ v, (k, v) ∉ m := by
  constructor
  · intro h v hv
    have := goLookupOpt_isSome_of_mem hv
    rw [h] at this
    exact absurd this (by simp)
  · intro h
    cases hl : goLookupOpt m k with
    | none => rfl
    | some v => exact absurd (mem_of_goLookupOpt_eq_some hl) (h v)

theorem goLookupOpt_eq_none_of_not_mem_keys {m : List Entry} {k : List Char}
    (h : k ∉ m.map Prod.fst) : goLookupOpt m k = none := by
  rw [goLookupOpt_eq_none_iff]
  intro v hv
  exact h (List.mem_map.mpr ⟨(k, v), hv, rfl⟩)

theorem goLookupOpt_perm {m mp : List Entry} (hp : m.Perm mp)
    (hnd : (m.map Prod.fst).Nodup) (k : List Char) :
    goLookupOpt m k = goLookupOpt mp k := by
  have hndp : (mp.map Prod.fst).Nodup := ((hp.map Prod.fst).nodup_iff).mp hnd
  cases hl : goLookupOpt m k with
  | none =>
    rw [goLookupOpt_eq_none_iff] at hl
    exact (goLookupOpt_eq_none_iff.mpr (fun v hv => hl v (hp.mem_iff.mpr hv))).symm
  | some v =>
    exact (goLookupOpt_eq_some_of_mem hndp (hp.mem_iff.mp (mem_of_goLookupOpt_eq_some hl))).symm

theorem countOcc_cons (q : List Char) (rest : List (List Char)) (p : List Char) :
    countOcc (q :: rest) p = (if q = p then 1 else 0) + countOcc rest p := by
  unfold countOcc
  rw [List.filter_cons]
  by_cases h : q = p
  · simp [h, Nat.add_comm]
  · simp [h]

theorem countOcc_eq_zero_of_not_mem :
    ∀ {l : List (List Char)} {p : List Char}, p ∉ l → countOcc l p = 0
  | [], _, _ => rfl
  | q :: rest, p, h => by
    rw [countOcc_cons, if_neg (fun e => h (List.mem_cons.mpr (Or.inl e.symm))),
      countOcc_eq_zero_of_not_mem (fun hm => h (List.mem_cons_of_mem _ hm))]

theorem countOcc_eq_one_of_mem :
    ∀ {l : List (List Char)} {p : List Char}, l.Nodup → p ∈ l → countOcc l p = 1
  | [], _, _, hm => absurd hm (List.not_mem_nil _)
  | q :: rest, p, hnd, hm => by
    rcases List.mem_cons.mp hm with rfl | hm2
    · rw [countOcc_cons, if_pos rfl, countOcc_eq_zero_of_not_mem (List.nodup_cons.mp hnd).1]
    · have hq : ¬q = p := fun e => (List.nodup_cons.mp hnd).1 (e ▸ hm2)
      rw [countOcc_cons, if_neg hq, countOcc_eq_one_of_mem (List.nodup_cons.mp hnd).2 hm2]

/-! Membership characterizations of the two lists `Index.Diff` produces. -/

theorem mem_diff_changed {i o : Index} {p : List Char} :
    p ∈ (i.Diff o).1 ↔ ∃ v, (p, v) ∈ o.files ∧ goLookupD i.files p ≠ v := by
  constructor
  · intro h
    rcases List.mem_map.mp h with ⟨⟨q, v⟩, hq, rfl⟩
    rcases List.mem_filter.mp hq with ⟨hmem, hcond⟩
    exact ⟨v, hmem, of_decide_eq_true hcond⟩
  · rintro ⟨v, hmem, hne⟩
    exact List.mem_map.mpr ⟨(p, v), List.mem_filter.mpr ⟨hmem, decide_eq_true hne⟩, rfl⟩

theorem mem_diff_deleted {i o : Index} {p : List Char} :
    p ∈ (i.Diff o).2 ↔ (∃ v, (p, v) ∈ i.files) ∧ goLookupOpt o.files p = none := by
  constructor
  · intro h
    rcases List.mem_map.mp h with ⟨⟨q, v⟩, hq, rfl⟩
    rcases List.mem_filter.mp hq with ⟨hmem, hcond⟩
    exact ⟨⟨v, hmem⟩, of_decide_eq_true hcond⟩
  · rintro ⟨⟨v, hmem⟩, hnone⟩
    exact List.mem_map.mpr ⟨(p, v), List.mem_filter.mpr ⟨hmem, decide_eq_true hnone⟩, rfl⟩

theorem mem_diff_changed_lookup {i o : Index} (hwo : o.wf) {p : List Char} :
    p ∈ (i.Diff o).1 ↔ ∃ v, goLookupOpt o.files p = some v ∧ goLookupD i.files p ≠ v := by
  rw [mem_diff_changed]
  constructor
  · rintro ⟨v, hm, hne⟩
    exact ⟨v, goLookupOpt_eq_some_of_mem hwo hm, hne⟩
  · rintro ⟨v, hl, hne⟩
    exact ⟨v, mem_of_goLookupOpt_eq_some hl, hne⟩

theorem mem_diff_deleted_lookup {i o : Index} {p : List Char} :
    p ∈ (i.Diff o).2 ↔ (goLookupOpt i.files p).isSome ∧ goLookupOpt o.files p = none := by
  rw [mem_diff_deleted]
  constructor
  · rintro ⟨⟨v, hm⟩, hnone⟩
    exact ⟨goLookupOpt_isSome_of_mem hm, hnone⟩
  · rintro ⟨hs, hnone⟩
    cases hl : goLookupOpt i.files p with
    | none => rw [hl] at hs; exact absurd hs (by simp)
    | some v => exact ⟨⟨v, mem_of_goLookupOpt_eq_some hl⟩, hnone⟩

theorem nodup_diff_changed {i o : Index} (hwo : o.wf) : (i.Diff o).1.Nodup :=
  List.Nodup.sublist ((List.filter_sublist o.files).map Prod.fst) hwo

theorem nodup_diff_deleted {i o : Index} (hwi : i.wf) : (i.Diff o).2.Nodup :=
  List.Nodup.sublist ((List.filter_sublist i.files).map Prod.fst) hwi

/-! Lemmas about `splitOnChar`, `stripCR`, `readLines` and `saveContent`. -/

theorem splitOnChar_cons (c x : Char) (xs : List Char) :
    splitOnChar c (x :: xs) =
      match splitOnChar c xs with
      | [] => [[]]
      | r :: rs => if x = c then [] :: r :: rs else (x :: r) :: rs := rfl

theorem splitOnChar_ne_nil (c : Char) : ∀ l : List Char, splitOnChar c l ≠ []
  | [] => by simp [splitOnChar]
  | x :: xs => by
    have h := splitOnChar_ne_nil c xs
    rw [splitOnChar_cons]
    cases hs : splitOnChar c xs with
    | nil => exact absurd hs h
    | cons r rs => by_cases hx : x = c <;> simp [hx]

theorem splitOnChar_not_mem {c : Char} : ∀ {l : List Char}, c ∉ l → splitOnChar c l = [l]
  | [], _ => rfl
  | x :: xs, h => by
    have hx : ¬x = c := fun e => h (List.mem_cons.mpr (Or.inl e.symm))
    have hxs := splitOnChar_not_mem (l := xs) (fun hm => h (List.mem_cons_of_mem _ hm))
    rw [splitOnChar_cons, hxs]
    simp [hx]

theorem splitOnChar_append {c : Char} :
    ∀ {a : List Char}, c ∉ a → ∀ b, splitOnChar c (a ++ c :: b) = a :: splitOnChar c b
  | [], _, b => by
    rw [List.nil_append, splitOnChar_cons]
    cases hs : splitOnChar c b with
    | nil => exact absurd hs (splitOnChar_ne_nil c b)
    | cons r rs => simp
  | x :: xs, h, b => by
    have hx : ¬x = c := fun e => h (List.mem_cons.mpr (Or.inl e.symm))
    have ih := splitOnChar_append (a := xs) (fun hm => h (List.mem_cons_of_mem _ hm)) b
    rw [List.cons_append, splitOnChar_cons, ih]
    simp [hx]

theorem splitOnChar_head (c : Char) :
    ∀ l : List Char, ∃ rest, splitOnChar c l = l.takeWhile (fun y => !decide (y = c)) :: rest
  | [] => ⟨[], rfl⟩
  | x :: xs => by
    obtain ⟨rest, hr⟩ := splitOnChar_head c xs
    by_cases hx : x = c
    · subst hx
      rw [splitOnChar_cons, hr]
      exact ⟨List.takeWhile (fun y => !decide (y = x)) xs :: rest, by
        simp [List.takeWhile_cons]⟩
    · refine ⟨rest, ?_⟩
      rw [splitOnChar_cons, hr]
      simp [List.takeWhile_cons, hx]

theorem readLines_nil : readLines [] = [] := rfl

theorem readLines_cons {a : List Char} (ha : '\n' ∉ a) (hcr : stripCR a = a) (b : List Char) :
    readLines (a ++ '\n' :: b) = a :: readLines b := by
  unfold readLines
  rw [splitOnChar_append ha]
  cases hs : splitOnChar '\n' b with
  | nil => exact absurd hs (splitOnChar_ne_nil '\n' b)
  | cons r rs =>
    rw [List.getLast?_cons_cons]
    by_cases hl : (r :: rs).getLast? = some []
    · rw [if_pos hl, if_pos hl, List.dropLast_cons₂, List.map_cons, hcr]
    · rw [if_neg hl, if_neg hl, List.map_cons, hcr]

theorem newline_not_mem_line {p v : List Char} (hp : '\n' ∉ p) (hv : '\n' ∉ v) :
    '\n' ∉ p ++ ':' :: v := by
  intro h
  rcases List.mem_append.mp h with h | h
  · exact hp h
  · rcases List.mem_cons.mp h with h | h
    · exact absurd h (by decide)
    · exact hv h

theorem stripCR_line {p v : List Char} (hv : v.getLast? ≠ some '\r') :
    stripCR (p ++ ':' :: v) = p ++ ':' :: v := by
  unfold stripCR
  rw [List.getLast?_append_cons]
  cases v with
  | nil => simp
  | cons w ws =>
    rw [List.getLast?_cons_cons, if_neg hv]

theorem splitOnChar_line {p v : List Char} (hp : ':' ∉ p) (hv : ':' ∉ v) :
    splitOnChar ':' (p ++ ':' :: v) = [p, v] := by
  rw [splitOnChar_append hp, splitOnChar_not_mem hv]

theorem mapInsert_fresh {m : List Entry} {k v : List Char} (h : k ∉ m.map Prod.fst) :
    mapInsert m k v = m ++ [(k, v)] := by
  unfold mapInsert
  rw [goLookupOpt_eq_none_of_not_mem_keys h]
  rfl

theorem insertLines_save :
    ∀ (order : List Entry) (m : List Entry), (∀ e ∈ order, lineOK e) →
      (order.map Prod.fst).Nodup →
      (∀ k, k ∈ order.map Prod.fst → k ∉ m.map Prod.fst) →
      insertLines m (readLines (saveContent order)) = some (m ++ order)
  | [], m, _, _, _ => by simp [saveContent, readLines_nil, insertLines]
  | (p, v) :: rest, m, hok, hnd, hdisj => by
    obtain ⟨hp1, hp2, hv1, hv2, hv3⟩ :
        ':' ∉ p ∧ '\n' ∉ p ∧ ':' ∉ v ∧ '\n' ∉ v ∧ v.getLast? ≠ some '\r' :=
      hok (p, v) (List.mem_cons_self _ _)
    have hline : saveContent ((p, v) :: rest) = (p ++ ':' :: v) ++ '\n' :: saveContent rest := by
      simp [saveContent]
    rw [hline, readLines_cons (newline_not_mem_line hp2 hv2) (stripCR_line hv3)]
    simp only [insertLines, splitOnChar_line hp1 hv1]
    have hpfresh : p ∉ m.map Prod.fst := hdisj p (by simp)
    rw [mapInsert_fresh hpfresh]
    have hndr : (rest.map Prod.fst).Nodup := (List.nodup_cons.mp (by simpa using hnd)).2
    have hpn : p ∉ rest.map Prod.fst := (List.nodup_cons.mp (by simpa using hnd)).1
    have hdisjr : ∀ k, k ∈ rest.map Prod.fst → k ∉ (m ++ [(p, v)]).map Prod.fst := by
      intro k hk hmem
      rw [List.map_append, List.mem_append] at hmem
      rcases hmem with hmem | hmem
      · exact hdisj k (by simp [hk]) hmem
      · simp at hmem
        subst hmem
        exact hpn hk
    rw [insertLines_save rest (m ++ [(p, v)])
      (fun e he => hok e (List.mem_cons_of_mem _ he)) hndr hdisjr]
    simp

/-! Claim theorems. -/

/-- Claim C1 (amended): for every pair of well-formed indexes (distinct map
keys, as Go maps guarantee), Diff(previous, current) classifies paths as
follows: every path p present in current whose fingerprint differs from
previous's entry for p, or for which previous has no entry and whose
fingerprint is nonempty, appears exactly once in changedOrNew; every path
present in previous and absent from current appears exactly once in deleted;
a path present in both with identical fingerprints appears in neither list;
a path present in current is never in deleted, and a path absent from
current is never in changedOrNew. -/
theorem diff_classification (i o : Index) (hwi : i.wf) (hwo : o.wf) :
    (∀ p v, goLookupOpt o.files p = some v →
      ((∃ w, goLookupOpt i.files p = some w ∧ w ≠ v) ∨
        (goLookupOpt i.files p = none ∧ v ≠ [])) →
      countOcc (i.Diff o).1 p = 1) ∧
    (∀ p v, goLookupOpt i.files p = some v → goLookupOpt o.files p = some v →
      p ∉ (i.Diff o).1 ∧ p ∉ (i.Diff o).2) ∧
    (∀ p, (goLookupOpt i.files p).isSome → goLookupOpt o.files p = none →
      countOcc (i.Diff o).2 p = 1) ∧
    (∀ p, goLookupOpt o.files p ≠ none → p ∉ (i.Diff o).2) ∧
    (∀ p, goLookupOpt o.files p = none → p ∉ (i.Diff o).1) := by
  refine ⟨?_, ?_, ?_, ?_, ?_⟩
  · intro p v hv hcond
    have hmem : p ∈ (i.Diff o).1 := by
      rw [mem_diff_changed_lookup hwo]
      refine ⟨v, hv, ?_⟩
      rcases hcond with ⟨w, hw, hne⟩ | ⟨hn, hne⟩
      · unfold goLookupD
        rw [hw]
        exact hne
      · unfold goLookupD
        rw [hn]
        exact fun e => hne e.symm
    exact countOcc_eq_one_of_mem (nodup_diff_changed hwo) hmem
  · intro p v hi ho
    constructor
    · rw [mem_diff_changed_lookup hwo]
      rintro ⟨w, hw, hne⟩
      have hvw : v = w := Option.some.inj (ho.symm.trans hw)
      subst hvw
      exact hne (by unfold goLookupD; rw [hi, Option.getD_some])
    · rw [mem_diff_deleted_lookup]
      rintro ⟨_, hnone⟩
      exact Option.noConfusion (ho.symm.trans hnone)
  · intro p hs hnone
    exact countOcc_eq_one_of_mem (nodup_diff_deleted hwi)
      (mem_diff_deleted_lookup.mpr ⟨hs, hnone⟩)
  · intro p hne
    rw [mem_diff_deleted_lookup]
    rintro ⟨_, hnone⟩
    exact hne hnone
  · intro p hnone
    rw [mem_diff_changed_lookup hwo]
    rintro ⟨v, hv, _⟩
    exact Option.noConfusion (hnone.symm.trans hv)

theorem diff_classification_app :
    countOcc ((Index.mk [] [(['a'], ['x'])]).Diff ⟨[], [(['a'], ['y'])]⟩).1 ['a'] = 1 :=
  (diff_classification ⟨[], [(['a'], ['x'])]⟩ ⟨[], [(['a'], ['y'])]⟩ (by decide) (by decide)).1
    ['a'] ['y'] (by decide) (Or.inl ⟨['x'], by decide, by decide⟩)

/-- Claim C1 counterexample: previous empty, current holding path p with the
empty-string fingerprint — p is present in current and previous has no entry
for it, yet changedOrNew is empty, against the claim's classification. -/
theorem diff_classification_cex :
    goLookupOpt [(['p'], ([] : List Char))] ['p'] = some [] ∧
    goLookupOpt ([] : List Entry) ['p'] = none ∧
    ((Index.mk [] []).Diff ⟨[], [(['p'], [])]⟩).1 = [] := by decide

/-- Claim C2: Save writes the entries in Go map iteration order, which the
language leaves unspecified and randomizes, with no sorting; the two
iteration orders of the entries {a:a, b:b} are permutations of one another
and produce different bytes, so repeated saves are not byte-identical and
only one of the orders matches the a:a\nb:b\n content the repository's own
TestIndex_Save expects. -/
theorem save_order_dependent :
    saveContent [(['a'], ['a']), (['b'], ['b'])] = "a:a\nb:b\n".data ∧
    saveContent [(['b'], ['b']), (['a'], ['a'])] = "b:b\na:a\n".data ∧
    List.Perm [(['b'], ['b']), (['a'], ['a'])] [(['a'], ['a']), (['b'], ['b'])] ∧
    saveContent [(['b'], ['b']), (['a'], ['a'])] ≠ saveContent [(['a'], ['a']), (['b'], ['b'])] :=
  ⟨by decide, by decide, List.Perm.swap _ _ _, by decide⟩

/-- Claim C3 (amended): for every well-formed Index whose paths and
fingerprints contain no colon and no newline, and whose fingerprints do not
end in a carriage return, Save (in whatever order Go iterates the map)
followed by Load from the same root succeeds and produces an Index with the
same directory and an entries mapping equal to the original. -/
theorem save_load_roundtrip (I : Index) (order : List Entry)
    (hw : I.wf) (hperm : order.Perm I.files) (hok : ∀ e ∈ I.files, lineOK e) :
    ∃ m, Load I.directory (some (saveContent order)) = .ok ⟨I.directory, m⟩ ∧
      ∀ k, goLookupOpt m k = goLookupOpt I.files k := by
  have hndo : (order.map Prod.fst).Nodup := ((hperm.map Prod.fst).nodup_iff).mpr hw
  have hoko : ∀ e ∈ order, lineOK e := fun e he => hok e (hperm.mem_iff.mp he)
  have h := insertLines_save order [] hoko hndo (by simp)
  rw [List.nil_append] at h
  refine ⟨order, ?_, fun k => goLookupOpt_perm hperm hndo k⟩
  simp only [Load]
  rw [h]

theorem save_load_roundtrip_app :
    ∃ m, Load ['d'] (some (saveContent [(['a'], ['x'])])) = .ok ⟨['d'], m⟩ ∧
      ∀ k, goLookupOpt m k = goLookupOpt [(['a'], ['x'])] k :=
  save_load_roundtrip ⟨['d'], [(['a'], ['x'])]⟩ [(['a'], ['x'])] (by decide)
    (List.Perm.refl _) (by decide)

/-- Claim C3 counterexample: an Index whose single path contains a colon does
not survive the round trip — saving {a:b -> c} writes the line a:b:c, and
loading that binds path a to fingerprint b, so the loaded mapping differs
from the original at key a:b. -/
theorem save_load_roundtrip_cex :
    Load [] (some (saveContent [("a:b".data, ['c'])])) = .ok ⟨[], [(['a'], ['b'])]⟩ ∧
    goLookupOpt [("a:b".data, ['c'])] "a:b".data = some ['c'] ∧
    goLookupOpt [(['a'], ['b'])] "a:b".data = none := by decide

/-- Claim C4 (amended): Compute on the scenario directory (files a and b,
ignore sidecar listing b) returns the Index mapping the ignore sidecar file
itself to sha1("b") and a to sha1("a"): the ignored path b is excluded, but
the dot-prefixed marker files are regular files and are hashed into the
entries like any other file unless themselves listed in the ignore set
(matching the repository's TestCompute, which expects two entries). -/
theorem compute_scenario :
    ComputeIO [] scenarioFS =
      .ok ⟨[], [(ignoreFileName, "e9d71f5ee7c92d6dc9e92ffdad17b8bd49418f98".data),
        (['a'], "86f7e437faa5a7fce15d1ddcb9eaeaea377667b8".data)]⟩ := by decide

/-- Claim C4 counterexample: on the scenario directory the computed entries
mapping binds the ignore sidecar marker file to sha1("b"), so the mapping is
not {a -> sha1("a")} alone and the dot-prefixed marker file does appear. -/
theorem compute_marker_indexed_cex :
    (match ComputeIO [] scenarioFS with
      | .ok i => goLookupOpt i.files ignoreFileName
      | .err _ => none
      | .fatal _ => none) = some "e9d71f5ee7c92d6dc9e92ffdad17b8bd49418f98".data := by decide

/-- Claim C5: on a persisted index file containing a line with no colon
separator, Load does not return a corrupt-index error: the access parts[1]
on a one-element split is an index-out-of-range runtime panic, so the
process crashes. -/
theorem load_malformed_line_panics :
    Load [] (some "malformed".data) = .panicked := by decide

/-- Claim C6: an os.Open failure while hashing is returned from Compute as an
error, but an io.Copy (read) failure inside sha1sum hits log.Fatal and
terminates the process from inside the walk instead of being returned. -/
theorem compute_read_error_fatal :
    sha1sum (.readErr "boom".data) = .fatal "boom".data ∧
    ComputeIO [] [(['a'], FileRead.readErr "boom".data)] = .fatal "boom".data ∧
    ComputeIO [] [(['a'], FileRead.openErr "boom".data)] = .err "boom".data := by decide

/-- Claim C7 (amended): Load splits each line on every colon and inserts
(segment 0, segment 1): the path is the text before the first colon and the
fingerprint is the text between the first and the second colon, anything
after a second colon being discarded; in particular, on persisted content
test:123445\nlol:1253425 it yields exactly {test -> 123445, lol -> 1253425}. -/
theorem load_parses_by_split (p v : List Char) (hp : ':' ∉ p) :
    (∃ rest, splitOnChar ':' (p ++ ':' :: v) =
      p :: v.takeWhile (fun y => !decide (y = ':')) :: rest) ∧
    Load [] (some "test:123445\nlol:1253425".data) =
      .ok ⟨[], [("test".data, "123445".data), ("lol".data, "1253425".data)]⟩ := by
  constructor
  · obtain ⟨rest, hr⟩ := splitOnChar_head ':' v
    exact ⟨rest, by rw [splitOnChar_append hp, hr]⟩
  · decide

theorem load_parses_by_split_app :
    (∃ rest, splitOnChar ':' ("test".data ++ ':' :: "123445".data) =
      "test".data :: ("123445".data).takeWhile (fun y => !decide (y = ':')) :: rest) ∧
    Load [] (some "test:123445\nlol:1253425".data) =
      .ok ⟨[], [("test".data, "123445".data), ("lol".data, "1253425".data)]⟩ :=
  load_parses_by_split "test".data "123445".data (by decide)

/-- Claim C7 counterexample: on the line a:b:c, splitting on the first colon
would bind path a to fingerprint b:c, but Load binds a to b, discarding the
text after the second colon. -/
theorem load_first_colon_cex :
    Load [] (some "a:b:c".data) = .ok ⟨[], [(['a'], ['b'])]⟩ ∧
    ['b'] ≠ "b:c".data := by decide

/-- Claim C8: for every well-formed Index X (distinct map keys, as Go maps
guarantee), Diff(X, X) returns an empty changedOrNew list and an empty
deleted list. -/
theorem diff_self (X : Index) (hw : X.wf) : X.Diff X = ([], []) := by
  unfold Index.Diff
  rw [Prod.mk.injEq]
  constructor
  · rw [List.map_eq_nil_iff, List.filter_eq_nil_iff]
    rintro ⟨p, v⟩ hm hcond
    exact (of_decide_eq_true hcond)
      (by unfold goLookupD; rw [goLookupOpt_eq_some_of_mem hw hm, Option.getD_some])
  · rw [List.map_eq_nil_iff, List.filter_eq_nil_iff]
    rintro ⟨p, v⟩ hm hcond
    have hsome := goLookupOpt_isSome_of_mem hm
    rw [of_decide_eq_true hcond] at hsome
    exact absurd hsome (by simp)

theorem diff_self_app :
    (Index.mk [] [(['a'], ['x'])]).Diff ⟨[], [(['a'], ['x'])]⟩ = ([], []) :=
  diff_self ⟨[], [(['a'], ['x'])]⟩ (by decide)

/-- Claim C9: Diff treats a missing entry of the previous Index as the
empty-string fingerprint: a path present in current with the empty
fingerprint and absent from previous is not added to changedOrNew, even
though it is a new path. -/
theorem diff_missing_as_empty (prev cur : Index) (p : List Char) (hw : cur.wf)
    (hc : goLookupOpt cur.files p = some []) (hprev : goLookupOpt prev.files p = none) :
    p ∉ (prev.Diff cur).1 := by
  rw [mem_diff_changed_lookup hw]
  rintro ⟨v, hv, hne⟩
  have hveq : ([] : List Char) = v := Option.some.inj (hc.symm.trans hv)
  apply hne
  unfold goLookupD
  rw [hprev, ← hveq, Option.getD_none]

theorem diff_missing_as_empty_app :
    ['p'] ∉ ((Index.mk [] []).Diff ⟨[], [(['p'], [])]⟩).1 :=
  diff_missing_as_empty ⟨[], []⟩ ⟨[], [(['p'], [])]⟩ ['p'] (by decide) (by decide) (by decide)

/-- Claim C10: the classification Diff produces depends only on the two
entries mappings: for well-formed inputs (distinct keys), indexes whose
entries mappings are equal as lookup functions give equal changedOrNew and
deleted sets, whatever the directory fields are; the embedding of Diff is a
pure function, so neither input is mutated. -/
theorem diff_depends_only_on_entries (d1 d2 d3 d4 : List Char) (f f2 g g2 : List Entry)
    (_hf : (f.map Prod.fst).Nodup) (_hf2 : (f2.map Prod.fst).Nodup)
    (hg : (g.map Prod.fst).Nodup) (hg2 : (g2.map Prod.fst).Nodup)
    (hfe : ∀ k, goLookupOpt f k = goLookupOpt f2 k)
    (hge : ∀ k, goLookupOpt g k = goLookupOpt g2 k) :
    (∀ p, p ∈ (Index.Diff ⟨d1, f⟩ ⟨d2, g⟩).1 ↔ p ∈ (Index.Diff ⟨d3, f2⟩ ⟨d4, g2⟩).1) ∧
    (∀ p, p ∈ (Index.Diff ⟨d1, f⟩ ⟨d2, g⟩).2 ↔ p ∈ (Index.Diff ⟨d3, f2⟩ ⟨d4, g2⟩).2) := by
  constructor
  · intro p
    rw [mem_diff_changed_lookup (show (Index.mk d2 g).wf from hg),
      mem_diff_changed_lookup (show (Index.mk d4 g2).wf from hg2)]
    simp only [goLookupD, hfe p, hge p]
  · intro p
    rw [mem_diff_deleted_lookup, mem_diff_deleted_lookup]
    simp only [hfe p, hge p]

theorem diff_depends_only_on_entries_app :
    (∀ p, p ∈ (Index.Diff ⟨['x'], [(['a'], ['1'])]⟩ ⟨['y'], [(['b'], ['2'])]⟩).1 ↔
      p ∈ (Index.Diff ⟨['z'], [(['a'], ['1'])]⟩ ⟨['w'], [(['b'], ['2'])]⟩).1) ∧
    (∀ p, p ∈ (Index.Diff ⟨['x'], [(['a'], ['1'])]⟩ ⟨['y'], [(['b'], ['2'])]⟩).2 ↔
      p ∈ (Index.Diff ⟨['z'], [(['a'], ['1'])]⟩ ⟨['w'], [(['b'], ['2'])]⟩).2) :=
  diff_depends_only_on_entries ['x'] ['y'] ['z'] ['w'] [(['a'], ['1'])] [(['a'], ['1'])]
    [(['b'], ['2'])] [(['b'], ['2'])] (by decide) (by decide) (by decide) (by decide)
    (fun _ => rfl) (fun _ => rfl)
